import Mathlib

/-!
Shallow embedding of `generate_muse_bindings_mac_ctrl.py`: a tool that
parses LaTeX `\newcommand`/`\renewcommand` definitions out of a style
file and generates VS Code keybinding and snippet JSON structures.

Text is modelled as `List Char`.  Python `str.splitlines` /
`"\n".join` / `re` scanning are embedded as executable functions on
character lists, faithful to the source's behaviour (including the
normalization of line terminators performed by `splitlines` + join).
-/

namespace Muse

/-- The line-boundary characters recognized by Python `str.splitlines`. -/
def isPyLineBreak (c : Char) : Bool :=
  c = '\n' ∨ c = '\r' ∨ c = '\x0b' ∨ c = '\x0c' ∨
  c = '\x1c' ∨ c = '\x1d' ∨ c = '\x1e' ∨ c = '\x85' ∨
  c = ' ' ∨ c = ' '

/-- The whitespace characters matched by Python `re` class `\s` on `str`
patterns. -/
def isPySpace (c : Char) : Bool :=
  c = ' ' ∨ c = '\t' ∨ c = '\n' ∨ c = '\x0b' ∨ c = '\x0c' ∨ c = '\r' ∨
  c = '\x1c' ∨ c = '\x1d' ∨ c = '\x1e' ∨ c = '\x1f' ∨ c = '\x85' ∨
  c = '\xa0' ∨ c = ' ' ∨ c = ' ' ∨ c = ' ' ∨ c = ' ' ∨
  c = ' ' ∨ c = ' ' ∨ c = ' ' ∨ c = ' ' ∨ c = ' ' ∨
  c = ' ' ∨ c = ' ' ∨ c = ' ' ∨ c = ' ' ∨ c = ' ' ∨
  c = ' ' ∨ c = ' ' ∨ c = '　'

/-- Python `str.splitlines`, with the accumulator holding the current
line reversed and a flag recording whether the previous character was a
carriage return, so that a carriage return followed by a line feed
counts as a single boundary.  A trailing boundary does not produce a
final empty line. -/
def splitlinesAux : List Char → List Char → Bool → List (List Char)
  | [], acc, _ => if acc.isEmpty then [] else [acc.reverse]
  | c :: cs, acc, afterCR =>
    if afterCR ∧ c = '\n' then splitlinesAux cs acc false
    else if c = '\r' then acc.reverse :: splitlinesAux cs [] true
    else if isPyLineBreak c then acc.reverse :: splitlinesAux cs [] false
    else splitlinesAux cs (c :: acc) false

/-- Python `text.splitlines()`. -/
def splitlines (s : List Char) : List (List Char) := splitlinesAux s [] false

/-- One step of `re.sub(r"(?<!\\)%.*$", "", line)`: truncate at the
first `%` whose immediately preceding character is not a backslash
(`prev` tracks the previous character of the original line). -/
def stripLineAux : Option Char → List Char → List Char
  | _, [] => []
  | prev, c :: cs =>
    if c = '%' ∧ prev ≠ some '\\' then []
    else c :: stripLineAux (some c) cs

/-- Comment-strip a single (boundary-free) line. -/
def stripLine (l : List Char) : List Char := stripLineAux none l

/-- Python `"\n".join`. -/
def joinNL : List (List Char) → List Char
  | [] => []
  | [l] => l
  | l :: ls => l ++ '\n' :: joinNL ls

/-- `strip_comments` from the source: split into lines, strip each
line's comment tail, join with `"\n"`. -/
def strip_comments (s : List Char) : List Char :=
  joinNL ((splitlines s).map stripLine)

/-- The character class `[A-Za-z@]` of the extraction regex
(`Char.isAlpha` tests exactly the ASCII letter ranges). -/
def isNameChar (c : Char) : Bool := c.isAlpha ∨ c = '@'

/-- Decimal value of a digit string, as computed by Python `int`. -/
def parseNat (ds : List Char) : Nat :=
  ds.foldl (fun a c => a * 10 + (c.toNat - 48)) 0

/-- Match a literal prefix, returning the remainder on success. -/
def dropLit : List Char → List Char → Option (List Char)
  | [], s => some s
  | _ :: _, [] => none
  | p :: ps, c :: cs => if c = p then dropLit ps cs else none

/-- Greedy `\s*`. -/
def dropSpaces (s : List Char) : List Char := s.dropWhile isPySpace

/-- The head of the extraction regex, `\\(?:re)?newcommand`: at a given
position this matches exactly one of the two literal spellings. -/
def matchDefHead (cs : List Char) : Option (List Char) :=
  match dropLit "\\renewcommand".data cs with
  | some s => some s
  | none => dropLit "\\newcommand".data cs

/-- The interior `\s*(\d+)\s*\]` of the optional bracket group, tried
at `s9` (right after the opening bracket).  Returns the captured digit
string and the remainder after the closing bracket, or `none` when the
interior fails to match. -/
def matchCount (s9 : List Char) : Option (List Char × List Char) :=
  if ((dropSpaces s9).takeWhile Char.isDigit).isEmpty then none
  else
    match dropSpaces ((dropSpaces s9).drop
        ((dropSpaces s9).takeWhile Char.isDigit).length) with
    | c :: s12 =>
      if c = ']' then some ((dropSpaces s9).takeWhile Char.isDigit, s12)
      else none
    | [] => none

/-- The optional tail group `(?:\[\s*(\d+)\s*\])?` of the regex, tried
at `s8` (the position after the `\s*` following the closing brace).
When the group's interior fails to match, the group backtracks to the
empty match and the overall match ends at `s8` with no captured
count. -/
def matchOptCount (name : List Char) (s8 : List Char) :
    (List Char × Option Nat) × List Char :=
  match s8 with
  | c :: s9 =>
    if c = '[' then
      match matchCount s9 with
      | some (ds, s12) => ((name, some (parseNat ds)), s12)
      | none => ((name, none), s8)
    else ((name, none), s8)
  | [] => ((name, none), s8)

/-- The `\s*\}\s*(?:\[\s*(\d+)\s*\])?` part of the regex, tried after
the captured name (spaces before the brace already consumed). -/
def matchClose (name : List Char) (s6 : List Char) :
    Option ((List Char × Option Nat) × List Char) :=
  match s6 with
  | c :: s7 =>
    if c = '\x7d' then some (matchOptCount name (dropSpaces s7)) else none
  | [] => none

/-- The `([A-Za-z@]+)\s*\}\s*(?:\[\s*(\d+)\s*\])?` part of the regex,
tried at the position right after the name's backslash. -/
def matchName (s5 : List Char) :
    Option ((List Char × Option Nat) × List Char) :=
  if (s5.takeWhile isNameChar).isEmpty then none
  else
    matchClose (s5.takeWhile isNameChar)
      (dropSpaces (s5.drop (s5.takeWhile isNameChar).length))

/-- The `\s*\{\s*\\` part of the regex and everything after it, tried
at `s1` (right after the matched command word). -/
def matchAfterHead (s1 : List Char) :
    Option ((List Char × Option Nat) × List Char) :=
  match dropSpaces s1 with
  | c :: s3 =>
    if c = '\x7b' then
      match dropSpaces s3 with
      | c2 :: s5 => if c2 = '\\' then matchName s5 else none
      | [] => none
    else none
  | [] => none

/-- Try the regex
`\\(?:re)?newcommand\s*\{\s*\\([A-Za-z@]+)\s*\}\s*(?:\[\s*(\d+)\s*\])?`
at the head of `cs`.  On success, return the captured name, the
optional bracketed count, and the text after the match. -/
def matchAt (cs : List Char) : Option ((List Char × Option Nat) × List Char) :=
  (matchDefHead cs).bind matchAfterHead

/-- `re.finditer` scanning: at each position try `matchAt`; on success
continue after the match, otherwise advance one character.  Fuelled by
the input length (each step consumes at least one character, so the
fuel never runs out when initialized to the length). -/
def scanAux : Nat → List Char → List (List Char × Option Nat)
  | 0, _ => []
  | fuel + 1, cs =>
    match matchAt cs with
    | some ra => ra.1 :: scanAux fuel ra.2
    | none =>
      match cs with
      | [] => []
      | _ :: rest => scanAux fuel rest

/-- All matches of the extraction regex over `cs`, in scan order. -/
def scanAll (cs : List Char) : List (List Char × Option Nat) :=
  scanAux cs.length cs

/-- Python-`dict` assignment `d[k] = v`: overwrite in place if the key
is present, else append. -/
def dictInsert : List (String × Nat) → String → Nat → List (String × Nat)
  | [], k, v => [(k, v)]
  | p :: d, k, v => if p.1 = k then (k, v) :: d else p :: dictInsert d k v

/-- Python-`dict` lookup. -/
def dictGet? : List (String × Nat) → String → Option Nat
  | [], _ => none
  | p :: d, k => if p.1 = k then some p.2 else dictGet? d k

/-- `extract_commands`: strip comments, scan for definition headers and
record name → argument count (defaulting to 0 when the bracketed count
is absent), later definitions overwriting earlier ones. -/
def extract_commands (sty_text : List Char) : List (String × Nat) :=
  (scanAll (strip_comments sty_text)).foldl
    (fun d p => dictInsert d (String.mk p.1) (p.2.getD 0)) []

/-- The fixed editor-context guard. -/
def WHEN_CLAUSE : String := "editorTextFocus && editorLangId == latex"

/-- Static configuration: curated macro name → preferred base key, in
the order of the source's `KEY_MAP` dict. -/
def KEY_MAP : List (String × String) :=
  [("deleted", "d"), ("added", "a"), ("commented", "c"), ("highlight", "h"),
   ("needRef", "r"), ("modified", "m"), ("highlightComment", "h")]

/-- Macros that use the alt modifier because their base key collides. -/
def USE_ALT_PRIMARY : List String := ["highlightComment"]

/-- `build_snippet` from the source (literal braces written `\x7b`,
`\x7d`). -/
def build_snippet (cmd : String) (n_args : Nat) : String :=
  if n_args = 0 then "\\" ++ cmd ++ " $\x7bTM_SELECTED_TEXT:$1\x7d"
  else if n_args = 1 then "\\" ++ cmd ++ "\x7b$\x7bTM_SELECTED_TEXT:$1\x7d\x7d"
  else if n_args = 2 then
    if cmd = "modified" then
      "\\" ++ cmd ++ "\x7b$\x7bTM_SELECTED_TEXT:$1\x7d\x7d\x7b$\x7b2:修正後\x7d\x7d"
    else if cmd = "commented" ∨ cmd = "highlightComment" then
      "\\" ++ cmd ++ "\x7b$\x7bTM_SELECTED_TEXT:$1\x7d\x7d\x7b$\x7b2:コメント\x7d\x7d"
    else "\\" ++ cmd ++ "\x7b$\x7bTM_SELECTED_TEXT:$1\x7d\x7d\x7b$\x7b2:引数2\x7d\x7d"
  else
    "\\" ++ cmd ++ "\x7b$\x7bTM_SELECTED_TEXT:$1\x7d\x7d" ++
      String.join ((List.range' 2 (n_args - 1)).map fun i =>
        "\x7b$\x7b" ++ toString i ++ ":引数" ++ toString i ++ "\x7d\x7d")

/-- A keybinding record: chord, fixed command id, fixed context guard,
and the snippet body carried in the `args` object. -/
structure Binding where
  key : String
  command : String
  whenCond : String
  argsSnippet : String
deriving DecidableEq, Repr

/-- `make_binding` from the source. -/
def make_binding (key snippet : String) : Binding :=
  ⟨key, "editor.action.insertSnippet", WHEN_CLAUSE, snippet⟩

/-- The loop body of `generate_keybindings` for one `KEY_MAP` entry:
skip macros absent from the extracted table, otherwise emit the primary
and fallback bindings (alt-modified chords for `USE_ALT_PRIMARY`
macros). -/
def bindingsFor (cmds : List (String × Nat)) (p : String × String) : List Binding :=
  match dictGet? cmds p.1 with
  | none => []
  | some n =>
    let snippet := build_snippet p.1 n
    if USE_ALT_PRIMARY.contains p.1 then
      [make_binding ("ctrl+alt+" ++ p.2) snippet,
       make_binding ("ctrl+shift+alt+" ++ p.2) snippet]
    else
      [make_binding ("ctrl+" ++ p.2) snippet,
       make_binding ("ctrl+shift+" ++ p.2) snippet]

/-- `generate_keybindings` from the source: iterate `KEY_MAP` in order,
appending the two bindings of each qualifying macro. -/
def generate_keybindings (cmds : List (String × Nat)) : List Binding :=
  KEY_MAP.flatMap (bindingsFor cmds)

/-- One snippet-table entry. -/
structure Snip where
  prefixStr : String
  body : List String
  description : String
deriving DecidableEq, Repr

/-- The loop body of `generate_snippets` for one `KEY_MAP` entry. -/
def snipFor (cmds : List (String × Nat)) (p : String × String) :
    Option (String × Snip) :=
  (dictGet? cmds p.1).map fun n =>
    ("muse: " ++ p.1,
     ⟨"muse-" ++ p.1, [build_snippet p.1 n],
      "muselab-correction: \\" ++ p.1 ++ " (auto-generated)"⟩)

/-- `generate_snippets` from the source, as an ordered key/value list
(the `KEY_MAP` macro names are pairwise distinct, so dict insertion
order coincides with this list). -/
def generate_snippets (cmds : List (String × Nat)) : List (String × Snip) :=
  KEY_MAP.filterMap (snipFor cmds)

/-- JSON string-character escaping as performed by `json.dumps` with
`ensure_ascii=False`: escape the quote, the backslash and control
characters, pass everything else through. -/
def jsonEscapeChar (c : Char) : String :=
  if c = '"' then "\\\""
  else if c = '\\' then "\\\\"
  else if c = '\n' then "\\n"
  else if c = '\t' then "\\t"
  else if c = '\r' then "\\r"
  else if c = '\x08' then "\\b"
  else if c = '\x0c' then "\\f"
  else if c.toNat < 32 then
    "\\u00" ++ String.mk [(Nat.digitChar (c.toNat / 16)), (Nat.digitChar (c.toNat % 16))]
  else String.mk [c]

/-- A JSON string literal. -/
def jsonStr (s : String) : String :=
  "\"" ++ String.join (s.data.map jsonEscapeChar) ++ "\""

/-- A JSON array of strings at indentation depth `ind` (spaces), in the
`indent=2` style of `json.dumps`. -/
def jsonStrList (ind : String) (xs : List String) : String :=
  if xs.isEmpty then "[]"
  else
    "[\n" ++
      String.intercalate ",\n" (xs.map fun x => ind ++ "  " ++ jsonStr x) ++
      "\n" ++ ind ++ "]"

/-- `json.dumps(keybindings, ensure_ascii=False, indent=2)`. -/
def dumpBindings (bs : List Binding) : String :=
  if bs.isEmpty then "[]"
  else
    "[\n" ++
      String.intercalate ",\n" (bs.map fun b =>
        "  \x7b\n    \"key\": " ++ jsonStr b.key ++
        ",\n    \"command\": " ++ jsonStr b.command ++
        ",\n    \"when\": " ++ jsonStr b.whenCond ++
        ",\n    \"args\": \x7b\n      \"snippet\": " ++ jsonStr b.argsSnippet ++
        "\n    \x7d\n  \x7d") ++
      "\n]"

/-- `json.dumps(snippets, ensure_ascii=False, indent=2)`. -/
def dumpSnippets (ss : List (String × Snip)) : String :=
  if ss.isEmpty then "\x7b\x7d"
  else
    "\x7b\n" ++
      String.intercalate ",\n" (ss.map fun p =>
        "  " ++ jsonStr p.1 ++ ": \x7b\n    \"prefix\": " ++ jsonStr p.2.prefixStr ++
        ",\n    \"body\": " ++ jsonStrList "    " p.2.body ++
        ",\n    \"description\": " ++ jsonStr p.2.description ++
        "\n  \x7d") ++
      "\n\x7d"

/-- The observable outcome of one process run: the value returned by
`main` (which `SystemExit` turns into the exit status), the lines
printed to standard output (one entry per `print` call), and the files
written with their contents. -/
structure RunResult where
  exitCode : Nat
  printed : List String
  writes : List (String × String)
deriving Repr

/-- `main` from the source, with process inputs made explicit: `argv`
is `sys.argv` (program name first) and `fs` abstracts the file system
(path resolution and UTF-8 best-effort decoding folded into the
lookup, which returns the decoded file content when the path exists). -/
def mainRun (argv : List String) (fs : String → Option String) : RunResult :=
  match argv with
  | _ :: path :: _ =>
    match fs path with
    | none => ⟨2, ["ERROR: file not found: " ++ path], []⟩
    | some sty_text =>
      let cmds := extract_commands sty_text.data
      let keybindings := generate_keybindings cmds
      let snippets := generate_snippets cmds
      ⟨0,
       ["Generated files:", "  - .vscode/keybindings.json",
        "  - .vscode/latex.json", "\nIncluded commands:"] ++
         (KEY_MAP.filterMap fun p =>
           (dictGet? cmds p.1).map fun n =>
             "  \\" ++ p.1 ++ " [" ++ toString n ++ " args]") ++
         ["\nNote:", "  If a primary key conflicts, use its ctrl+shift fallback."],
       [(".vscode/keybindings.json", dumpBindings keybindings),
        (".vscode/latex.json", dumpSnippets snippets)]⟩
  | _ => ⟨2, ["Usage: python3 generate_muse_bindings_mac_ctrl.py <path-to-sty>"], []⟩

/-- Specification-side characterization for the comment stripper: the
number of leading characters of a line that are kept, i.e. the index of
the first `%` not immediately preceded by a backslash (`prev` is the
character before the current position), or the line length when there
is none. -/
def keptLen : Option Char → List Char → Nat
  | _, [] => 0
  | prev, c :: cs =>
    if c = '%' ∧ prev ≠ some '\\' then 0 else 1 + keptLen (some c) cs

/-- Does `pat` occur as a prefix of `s`? -/
def startsWithL : List Char → List Char → Bool
  | [], _ => true
  | _ :: _, [] => false
  | p :: ps, c :: cs => c == p && startsWithL ps cs

/-- Does `pat` occur as a contiguous substring of `s`? -/
def hasSub (pat : List Char) : List Char → Bool
  | [] => pat.isEmpty
  | c :: cs => startsWithL pat (c :: cs) || hasSub pat cs

/-- An input text consisting of one definition construct with a
bracketed count: `\newcommand{\X}[ds]`. -/
def defTextBracket (X ds : List Char) : List Char :=
  "\\newcommand\x7b\\".data ++ X ++ ("\x7d[".data ++ (ds ++ "]".data))

/-- An input text consisting of one definition construct without a
bracketed count: `\newcommand{\X}`. -/
def defTextPlain (X : List Char) : List Char :=
  "\\newcommand\x7b\\".data ++ X ++ "\x7d".data

/-- The regex matches for macro name `X` over the comment-stripped
text, in scan order. -/
def occurrences (text : List Char) (X : String) :
    List (List Char × Option Nat) :=
  (scanAll (strip_comments text)).filter (fun p => String.mk p.1 == X)

/-- The serialized contents of the two output documents produced for
one input file content. -/
def runOutputs (sty_text : List Char) : String × String :=
  (dumpBindings (generate_keybindings (extract_commands sty_text)),
   dumpSnippets (generate_snippets (extract_commands sty_text)))

/-- The `KEY_MAP` entries that qualify (their macro is present in the
extracted table), paired with their argument count. -/
def qualifiedKM (cmds : List (String × Nat)) : List (String × String × Nat) :=
  KEY_MAP.filterMap fun p => (dictGet? cmds p.1).map fun n => (p.1, p.2, n)

/-- Primary chord of a qualifying entry. -/
def primChord (q : String × String × Nat) : String :=
  if USE_ALT_PRIMARY.contains q.1 then "ctrl+alt+" ++ q.2.1 else "ctrl+" ++ q.2.1

/-- Fallback chord of a qualifying entry. -/
def fallChord (q : String × String × Nat) : String :=
  if USE_ALT_PRIMARY.contains q.1 then "ctrl+shift+alt+" ++ q.2.1
  else "ctrl+shift+" ++ q.2.1

/-- The two bindings emitted for a qualifying entry. -/
def bindingsOfQ (q : String × String × Nat) : List Binding :=
  [make_binding (primChord q) (build_snippet q.1 q.2.2),
   make_binding (fallChord q) (build_snippet q.1 q.2.2)]

/-- The snippet-table entry emitted for a qualifying entry. -/
def snipOfQ (q : String × String × Nat) : String × Snip :=
  ("muse: " ++ q.1,
   ⟨"muse-" ++ q.1, [build_snippet q.1 q.2.2],
    "muselab-correction: \\" ++ q.1 ++ " (auto-generated)"⟩)

/-! ## Lemmas about the scanner -/

theorem dropLit_length {pat s r : List Char} (h : dropLit pat s = some r) :
    r.length + pat.length = s.length := by
  induction pat generalizing s with
  | nil =>
    simp only [dropLit, Option.some.injEq] at h
    subst h; simp
  | cons p ps ih =>
    cases s with
    | nil => simp [dropLit] at h
    | cons c cs =>
      simp only [dropLit] at h
      split at h
      · have := ih h
        simp only [List.length_cons]
        omega
      · exact absurd h (by simp)

theorem matchDefHead_length {cs s1 : List Char} (h : matchDefHead cs = some s1) :
    s1.length < cs.length := by
  unfold matchDefHead at h
  cases hr : dropLit "\\renewcommand".data cs with
  | some s =>
    rw [hr] at h
    simp only [Option.some.injEq] at h
    subst h
    have h2 := dropLit_length hr
    have h3 : ("\\renewcommand".data).length = 13 := rfl
    omega
  | none =>
    rw [hr] at h
    have h2 := dropLit_length h
    have h3 : ("\\newcommand".data).length = 11 := rfl
    omega

theorem dropSpaces_length_le (s : List Char) :
    (dropSpaces s).length ≤ s.length :=
  (List.dropWhile_sublist isPySpace).length_le

theorem matchCount_length_le {s9 ds s12 : List Char}
    (h : matchCount s9 = some (ds, s12)) : s12.length ≤ s9.length := by
  unfold matchCount at h
  split at h
  · exact absurd h (by simp)
  · split at h
    next c s12x hm =>
      split at h
      · simp only [Option.some.injEq, Prod.mk.injEq] at h
        obtain ⟨-, rfl⟩ := h
        have h1 : s12x.length + 1 = (dropSpaces ((dropSpaces s9).drop
            ((dropSpaces s9).takeWhile Char.isDigit).length)).length := by
          rw [hm]; simp
        have h2 := dropSpaces_length_le ((dropSpaces s9).drop
            ((dropSpaces s9).takeWhile Char.isDigit).length)
        have h3 : ((dropSpaces s9).drop
            ((dropSpaces s9).takeWhile Char.isDigit).length).length ≤
              (dropSpaces s9).length := by
          simp [List.length_drop]
        have h4 := dropSpaces_length_le s9
        omega
      · exact absurd h (by simp)
    next hm => exact absurd h (by simp)

theorem matchOptCount_length_le (name s8 : List Char) :
    (matchOptCount name s8).2.length ≤ s8.length := by
  cases s8 with
  | nil => simp [matchOptCount]
  | cons c s9 =>
    by_cases hc : c = '['
    · simp only [matchOptCount, if_pos hc]
      cases hm : matchCount s9 with
      | some p =>
        obtain ⟨ds, s12⟩ := p
        have := matchCount_length_le hm
        simp only [List.length_cons]
        omega
      | none => simp
    · simp [matchOptCount, hc]

theorem matchName_length_le {s5 : List Char} {ra} (h : matchName s5 = some ra) :
    ra.2.length ≤ s5.length := by
  unfold matchName at h
  split at h
  · exact absurd h (by simp)
  · unfold matchClose at h
    split at h
    next c s7 hm =>
      split at h
      · simp only [Option.some.injEq] at h
        subst h
        have h1 := matchOptCount_length_le (s5.takeWhile isNameChar) (dropSpaces s7)
        have h2 := dropSpaces_length_le s7
        have h3 : s7.length + 1 =
            (dropSpaces (s5.drop (s5.takeWhile isNameChar).length)).length := by
          rw [hm]; simp
        have h4 := dropSpaces_length_le (s5.drop (s5.takeWhile isNameChar).length)
        have h5 : (s5.drop (s5.takeWhile isNameChar).length).length ≤ s5.length := by
          simp [List.length_drop]
        omega
      · exact absurd h (by simp)
    next hm => exact absurd h (by simp)

theorem matchAfterHead_length_le {s1 : List Char} {ra}
    (h : matchAfterHead s1 = some ra) : ra.2.length ≤ s1.length := by
  unfold matchAfterHead at h
  split at h
  next c s3 hm =>
    split at h
    · split at h
      next c2 s5 hm2 =>
        split at h
        · have h1 := matchName_length_le h
          have h2 : s5.length + 1 = (dropSpaces s3).length := by rw [hm2]; simp
          have h3 := dropSpaces_length_le s3
          have h4 : s3.length + 1 = (dropSpaces s1).length := by rw [hm]; simp
          have h5 := dropSpaces_length_le s1
          omega
        · exact absurd h (by simp)
      next hm2 => exact absurd h (by simp)
    · exact absurd h (by simp)
  next hm => exact absurd h (by simp)

theorem matchAt_length_lt {cs : List Char} {ra} (h : matchAt cs = some ra) :
    ra.2.length < cs.length := by
  unfold matchAt at h
  cases hh : matchDefHead cs with
  | none => rw [hh] at h; exact absurd h (by simp)
  | some s1 =>
    rw [hh] at h
    simp only [Option.some_bind] at h
    have h1 := matchAfterHead_length_le h
    have h2 := matchDefHead_length hh
    omega

theorem scanAux_succ (fuel : Nat) (cs : List Char) :
    scanAux (fuel + 1) cs =
      match matchAt cs with
      | some ra => ra.1 :: scanAux fuel ra.2
      | none =>
        match cs with
        | [] => []
        | _ :: rest => scanAux fuel rest := rfl

theorem scanAux_nil (fuel : Nat) : scanAux fuel [] = [] := by
  cases fuel with
  | zero => rfl
  | succ f => rw [scanAux_succ]; rfl

theorem scanAux_congr :
    ∀ f₁ f₂ cs, cs.length ≤ f₁ → cs.length ≤ f₂ →
      scanAux f₁ cs = scanAux f₂ cs := by
  intro f₁
  induction f₁ with
  | zero =>
    intro f₂ cs h₁ _
    have : cs = [] := List.length_eq_zero.mp (Nat.le_zero.mp h₁)
    subst this
    rw [scanAux_nil, scanAux_nil]
  | succ f ih =>
    intro f₂ cs h₁ h₂
    cases cs with
    | nil => rw [scanAux_nil, scanAux_nil]
    | cons c rest =>
      cases f₂ with
      | zero => simp at h₂
      | succ f₂ =>
        rw [scanAux_succ, scanAux_succ]
        cases hm : matchAt (c :: rest) with
        | some ra =>
          have hlt := matchAt_length_lt hm
          simp only [List.length_cons] at hlt h₁ h₂
          show ra.1 :: scanAux f ra.2 = ra.1 :: scanAux f₂ ra.2
          rw [ih f₂ ra.2 (by omega) (by omega)]
        | none =>
          simp only [List.length_cons] at h₁ h₂
          show scanAux f rest = scanAux f₂ rest
          exact ih f₂ rest (by omega) (by omega)

theorem scanAll_match {cs : List Char} {ra} (h : matchAt cs = some ra) :
    scanAll cs = ra.1 :: scanAll ra.2 := by
  have hlt := matchAt_length_lt h
  cases cs with
  | nil => exact absurd h (by simp [matchAt, matchDefHead, dropLit])
  | cons c rest =>
    show scanAux (rest.length + 1) (c :: rest) = _
    rw [scanAux_succ, h]
    simp only [List.length_cons] at hlt
    show ra.1 :: scanAux rest.length ra.2 = ra.1 :: scanAll ra.2
    rw [scanAux_congr rest.length ra.2.length ra.2 (by omega) (by omega)]
    rfl

theorem scanAll_skip {c : Char} {rest : List Char}
    (h : matchAt (c :: rest) = none) :
    scanAll (c :: rest) = scanAll rest := by
  show scanAux (rest.length + 1) (c :: rest) = _
  rw [scanAux_succ, h]
  rfl

theorem scanAll_nil : scanAll [] = [] := rfl

/-! ## Character-class facts -/

theorem isNameChar_not_break {c : Char} (h : isNameChar c = true) :
    isPyLineBreak c = false := by
  cases hb : isPyLineBreak c
  · rfl
  · exfalso
    simp only [isPyLineBreak, decide_eq_true_eq] at hb
    rcases hb with rfl | rfl | rfl | rfl | rfl | rfl | rfl | rfl | rfl | rfl <;>
      exact absurd h (by decide)

theorem isNameChar_not_space {c : Char} (h : isNameChar c = true) :
    isPySpace c = false := by
  cases hb : isPySpace c
  · rfl
  · exfalso
    simp only [isPySpace, decide_eq_true_eq] at hb
    rcases hb with rfl | rfl | rfl | rfl | rfl | rfl | rfl | rfl | rfl | rfl |
      rfl | rfl | rfl | rfl | rfl | rfl | rfl | rfl | rfl | rfl |
      rfl | rfl | rfl | rfl | rfl | rfl | rfl | rfl | rfl <;>
      exact absurd h (by decide)

theorem isNameChar_ne_percent {c : Char} (h : isNameChar c = true) : c ≠ '%' := by
  intro heq; subst heq; exact absurd h (by decide)

theorem isDigit_not_break {c : Char} (h : c.isDigit = true) :
    isPyLineBreak c = false := by
  cases hb : isPyLineBreak c
  · rfl
  · exfalso
    simp only [isPyLineBreak, decide_eq_true_eq] at hb
    rcases hb with rfl | rfl | rfl | rfl | rfl | rfl | rfl | rfl | rfl | rfl <;>
      exact absurd h (by decide)

theorem isDigit_not_space {c : Char} (h : c.isDigit = true) :
    isPySpace c = false := by
  cases hb : isPySpace c
  · rfl
  · exfalso
    simp only [isPySpace, decide_eq_true_eq] at hb
    rcases hb with rfl | rfl | rfl | rfl | rfl | rfl | rfl | rfl | rfl | rfl |
      rfl | rfl | rfl | rfl | rfl | rfl | rfl | rfl | rfl | rfl |
      rfl | rfl | rfl | rfl | rfl | rfl | rfl | rfl | rfl <;>
      exact absurd h (by decide)

theorem isDigit_ne_percent {c : Char} (h : c.isDigit = true) : c ≠ '%' := by
  intro heq; subst heq; exact absurd h (by decide)

/-! ## Comment stripping leaves break-free, percent-free text alone -/

theorem splitlinesAux_breakFree :
    ∀ cs acc, (∀ c ∈ cs, isPyLineBreak c = false) →
      splitlinesAux cs acc false =
        if acc.isEmpty ∧ cs.isEmpty then [] else [acc.reverse ++ cs] := by
  intro cs
  induction cs with
  | nil =>
    intro acc _
    cases acc <;> simp [splitlinesAux]
  | cons c cs ih =>
    intro acc hbf
    have hc : isPyLineBreak c = false := hbf c (by simp)
    have hcr : c ≠ '\r' := by
      intro heq; subst heq; exact absurd hc (by decide)
    rw [show splitlinesAux (c :: cs) acc false =
        (if false ∧ c = '\n' then splitlinesAux cs acc false
         else if c = '\r' then acc.reverse :: splitlinesAux cs [] true
         else if isPyLineBreak c then acc.reverse :: splitlinesAux cs [] false
         else splitlinesAux cs (c :: acc) false) from rfl]
    simp only [false_and, if_false, if_neg hcr, hc, Bool.false_eq_true]
    rw [ih (c :: acc) (fun d hd => hbf d (by simp [hd]))]
    simp [List.append_assoc]

theorem stripLineAux_id :
    ∀ l prev, (∀ c ∈ l, c ≠ '%') → stripLineAux prev l = l := by
  intro l
  induction l with
  | nil => intro prev _; rfl
  | cons c cs ih =>
    intro prev hnp
    have hc : c ≠ '%' := hnp c (by simp)
    simp only [stripLineAux, hc, false_and, if_false]
    rw [ih (some c) (fun d hd => hnp d (by simp [hd]))]

theorem strip_comments_id {s : List Char}
    (hb : ∀ c ∈ s, isPyLineBreak c = false) (hp : ∀ c ∈ s, c ≠ '%') :
    strip_comments s = s := by
  cases s with
  | nil => rfl
  | cons c cs =>
    unfold strip_comments splitlines
    rw [splitlinesAux_breakFree (c :: cs) [] hb]
    simp only [List.isEmpty_cons, and_false, if_false, List.isEmpty_nil,
      Bool.false_eq_true, List.reverse_nil, List.nil_append, List.map_cons,
      List.map_nil]
    show joinNL [stripLine (c :: cs)] = c :: cs
    rw [show stripLine (c :: cs) = stripLineAux none (c :: cs) from rfl,
      stripLineAux_id (c :: cs) none hp]
    rfl

/-! ## The matcher on a canonical definition header -/

theorem matchName_brace (X r : List Char) (hX : X ≠ [])
    (hXc : ∀ c ∈ X, isNameChar c = true) :
    matchName (X ++ '\x7d' :: r) = some (matchOptCount X (dropSpaces r)) := by
  have htw : (X ++ '\x7d' :: r).takeWhile isNameChar = X := by
    rw [List.takeWhile_append_of_pos hXc,
      List.takeWhile_cons_of_neg (by decide : ¬ (isNameChar '\x7d' = true))]
    simp
  have hne : X.isEmpty = false := by
    cases X with
    | nil => exact absurd rfl hX
    | cons a b => rfl
  unfold matchName
  rw [htw, hne]
  simp only [Bool.false_eq_true, if_false]
  rw [List.drop_left,
    show dropSpaces ('\x7d' :: r) = '\x7d' :: r by
      simp [dropSpaces, List.dropWhile_cons_of_neg,
        (by decide : ¬ (isPySpace '\x7d' = true))]]
  unfold matchClose
  simp

theorem matchCount_digits (ds r : List Char) (hds : ds ≠ [])
    (hdsc : ∀ c ∈ ds, c.isDigit = true) :
    matchCount (ds ++ ']' :: r) = some (ds, r) := by
  obtain ⟨d, ds2, rfl⟩ := List.exists_cons_of_ne_nil hds
  have hdrop : dropSpaces ((d :: ds2) ++ ']' :: r) = (d :: ds2) ++ ']' :: r := by
    simp only [List.cons_append]
    exact List.dropWhile_cons_of_neg (by
      simp [isDigit_not_space (hdsc d (by simp))])
  have htw : ((d :: ds2) ++ ']' :: r).takeWhile Char.isDigit = d :: ds2 := by
    rw [List.takeWhile_append_of_pos hdsc,
      List.takeWhile_cons_of_neg (by decide : ¬ (']'.isDigit = true))]
    simp
  unfold matchCount
  rw [hdrop, htw]
  simp only [List.isEmpty_cons, Bool.false_eq_true, if_false]
  rw [List.drop_left,
    show dropSpaces (']' :: r) = ']' :: r from
      List.dropWhile_cons_of_neg (by decide)]
  simp

theorem matchOptCount_cons (name : List Char) (c : Char) (s9 : List Char) :
    matchOptCount name (c :: s9) =
      if c = '[' then
        match matchCount s9 with
        | some (ds, s12) => ((name, some (parseNat ds)), s12)
        | none => ((name, none), c :: s9)
      else ((name, none), c :: s9) := rfl

theorem matchOptCount_bracket (name ds r : List Char) (hds : ds ≠ [])
    (hdsc : ∀ c ∈ ds, c.isDigit = true) :
    matchOptCount name ('[' :: (ds ++ ']' :: r)) =
      ((name, some (parseNat ds)), r) := by
  rw [matchOptCount_cons, if_pos rfl, matchCount_digits ds r hds hdsc]

theorem matchAt_defTextBracket (X ds : List Char) (hX : X ≠ [])
    (hXc : ∀ c ∈ X, isNameChar c = true) (hds : ds ≠ [])
    (hdsc : ∀ c ∈ ds, c.isDigit = true) :
    matchAt (defTextBracket X ds) = some ((X, some (parseNat ds)), []) := by
  have h0 : matchAt (defTextBracket X ds) =
      matchName (X ++ '\x7d' :: ('[' :: (ds ++ ']' :: []))) := rfl
  rw [h0, matchName_brace X _ hX hXc,
    show dropSpaces ('[' :: (ds ++ ']' :: [])) = '[' :: (ds ++ ']' :: []) from
      List.dropWhile_cons_of_neg (by decide),
    matchOptCount_bracket X ds [] hds hdsc]

theorem matchAt_defTextPlain (X : List Char) (hX : X ≠ [])
    (hXc : ∀ c ∈ X, isNameChar c = true) :
    matchAt (defTextPlain X) = some ((X, none), []) := by
  have h0 : matchAt (defTextPlain X) = matchName (X ++ '\x7d' :: []) := rfl
  rw [h0, matchName_brace X [] hX hXc]
  rfl

theorem strip_defTextBracket (X ds : List Char)
    (hXc : ∀ c ∈ X, isNameChar c = true)
    (hdsc : ∀ c ∈ ds, c.isDigit = true) :
    strip_comments (defTextBracket X ds) = defTextBracket X ds := by
  apply strip_comments_id
  · intro c hc
    simp only [defTextBracket, List.mem_append] at hc
    rcases hc with (hc | hc) | hc | hc | hc
    · exact (by decide : ∀ c ∈ "\\newcommand\x7b\\".data,
        isPyLineBreak c = false) c hc
    · exact isNameChar_not_break (hXc c hc)
    · exact (by decide : ∀ c ∈ "\x7d[".data, isPyLineBreak c = false) c hc
    · exact isDigit_not_break (hdsc c hc)
    · exact (by decide : ∀ c ∈ "]".data, isPyLineBreak c = false) c hc
  · intro c hc
    simp only [defTextBracket, List.mem_append] at hc
    rcases hc with (hc | hc) | hc | hc | hc
    · exact (by decide : ∀ c ∈ "\\newcommand\x7b\\".data, c ≠ '%') c hc
    · exact isNameChar_ne_percent (hXc c hc)
    · exact (by decide : ∀ c ∈ "\x7d[".data, c ≠ '%') c hc
    · exact isDigit_ne_percent (hdsc c hc)
    · exact (by decide : ∀ c ∈ "]".data, c ≠ '%') c hc

theorem strip_defTextPlain (X : List Char)
    (hXc : ∀ c ∈ X, isNameChar c = true) :
    strip_comments (defTextPlain X) = defTextPlain X := by
  apply strip_comments_id
  · intro c hc
    simp only [defTextPlain, List.mem_append] at hc
    rcases hc with (hc | hc) | hc
    · exact (by decide : ∀ c ∈ "\\newcommand\x7b\\".data,
        isPyLineBreak c = false) c hc
    · exact isNameChar_not_break (hXc c hc)
    · exact (by decide : ∀ c ∈ "\x7d".data, isPyLineBreak c = false) c hc
  · intro c hc
    simp only [defTextPlain, List.mem_append] at hc
    rcases hc with (hc | hc) | hc
    · exact (by decide : ∀ c ∈ "\\newcommand\x7b\\".data, c ≠ '%') c hc
    · exact isNameChar_ne_percent (hXc c hc)
    · exact (by decide : ∀ c ∈ "\x7d".data, c ≠ '%') c hc

theorem extract_defTextBracket (X ds : List Char) (hX : X ≠ [])
    (hXc : ∀ c ∈ X, isNameChar c = true) (hds : ds ≠ [])
    (hdsc : ∀ c ∈ ds, c.isDigit = true) :
    extract_commands (defTextBracket X ds) = [(String.mk X, parseNat ds)] := by
  unfold extract_commands
  rw [strip_defTextBracket X ds hXc hdsc,
    scanAll_match (matchAt_defTextBracket X ds hX hXc hds hdsc), scanAll_nil]
  rfl

theorem extract_defTextPlain (X : List Char) (hX : X ≠ [])
    (hXc : ∀ c ∈ X, isNameChar c = true) :
    extract_commands (defTextPlain X) = [(String.mk X, 0)] := by
  unfold extract_commands
  rw [strip_defTextPlain X hXc,
    scanAll_match (matchAt_defTextPlain X hX hXc), scanAll_nil]
  rfl

/-! ## Python-dict lemmas -/

theorem dictGet_dictInsert (d : List (String × Nat)) (k : String) (v : Nat)
    (k' : String) :
    dictGet? (dictInsert d k v) k' = if k' = k then some v else dictGet? d k' := by
  induction d with
  | nil =>
    simp only [dictInsert, dictGet?]
    by_cases hk : k' = k
    · subst hk; simp
    · rw [if_neg (fun h => hk h.symm), if_neg hk]
  | cons p d ih =>
    simp only [dictInsert]
    by_cases hp : p.1 = k
    · rw [if_pos hp]
      simp only [dictGet?]
      by_cases hk : k' = k
      · rw [if_pos (by rw [hk]), if_pos hk]
      · rw [if_neg (fun h => hk h.symm), if_neg hk, if_neg (by rw [hp]; exact fun h => hk h.symm)]
    · rw [if_neg hp]
      simp only [dictGet?]
      by_cases hpk : p.1 = k'
      · rw [if_pos hpk, if_pos hpk, if_neg (by rw [← hpk]; exact hp)]
      · rw [if_neg hpk, if_neg hpk, ih]

theorem dictGet_foldl (ms : List (List Char × Option Nat))
    (d : List (String × Nat)) (k : String) :
    dictGet? (ms.foldl (fun d p => dictInsert d (String.mk p.1) (p.2.getD 0)) d) k =
      match (ms.filter (fun p => String.mk p.1 == k)).getLast? with
      | some p => some (p.2.getD 0)
      | none => dictGet? d k := by
  induction ms using List.reverseRecOn with
  | nil => simp
  | append_singleton ms m ih =>
    rw [List.foldl_append]
    simp only [List.foldl_cons, List.foldl_nil]
    rw [dictGet_dictInsert, List.filter_append]
    by_cases hm : (String.mk m.1 == k) = true
    · have hmk : String.mk m.1 = k := by simpa using hm
      rw [if_pos hmk.symm]
      have : (ms.filter (fun p => String.mk p.1 == k) ++
          List.filter (fun p => String.mk p.1 == k) [m]).getLast? = some m := by
        rw [show List.filter (fun p => String.mk p.1 == k) [m] = [m] by
          simp [List.filter, hm]]
        exact List.getLast?_concat _
      rw [this]
    · have hmk : ¬ (k = String.mk m.1) := by
        intro h; exact hm (by simp [h])
      rw [if_neg hmk]
      rw [show List.filter (fun p => String.mk p.1 == k) [m] = [] by
        simp [List.filter_cons, hm]]
      rw [List.append_nil, ih]

/-! ## Line structure of the comment stripper -/

theorem splitlinesAux_cons (c : Char) (cs acc : List Char) (flag : Bool) :
    splitlinesAux (c :: cs) acc flag =
      if flag ∧ c = '\n' then splitlinesAux cs acc false
      else if c = '\r' then acc.reverse :: splitlinesAux cs [] true
      else if isPyLineBreak c then acc.reverse :: splitlinesAux cs [] false
      else splitlinesAux cs (c :: acc) false := rfl

theorem stripLineAux_idem :
    ∀ l prev, stripLineAux prev (stripLineAux prev l) = stripLineAux prev l := by
  intro l
  induction l with
  | nil => intro prev; rfl
  | cons a l ih =>
    intro prev
    by_cases hcond : a = '%' ∧ prev ≠ some '\\'
    · rw [show stripLineAux prev (a :: l) = [] by simp [stripLineAux, hcond]]
      rfl
    · rw [show stripLineAux prev (a :: l) = a :: stripLineAux (some a) l by
        simp [stripLineAux, hcond]]
      rw [show stripLineAux prev (a :: stripLineAux (some a) l) =
          a :: stripLineAux (some a) (stripLineAux (some a) l) by
        simp [stripLineAux, hcond]]
      rw [ih (some a)]

theorem stripLineAux_sub : ∀ l prev c, c ∈ stripLineAux prev l → c ∈ l := by
  intro l
  induction l with
  | nil => intro prev c h; simp [stripLineAux] at h
  | cons a l ih =>
    intro prev c h
    simp only [stripLineAux] at h
    split at h
    · exact absurd h (List.not_mem_nil c)
    · rcases List.mem_cons.mp h with rfl | h2
      · exact List.mem_cons_self _ _
      · exact List.mem_cons_of_mem _ (ih (some a) c h2)

theorem splitlinesAux_lines_breakFree :
    ∀ cs acc flag, (∀ c ∈ acc, isPyLineBreak c = false) →
      ∀ l ∈ splitlinesAux cs acc flag, ∀ c ∈ l, isPyLineBreak c = false := by
  intro cs
  induction cs with
  | nil =>
    intro acc flag hacc l hl c hc
    simp only [splitlinesAux] at hl
    split at hl
    · exact absurd hl (List.not_mem_nil l)
    · simp only [List.mem_singleton] at hl
      subst hl
      exact hacc c (List.mem_reverse.mp hc)
  | cons c0 cs ih =>
    intro acc flag hacc l hl c hc
    rw [splitlinesAux_cons] at hl
    by_cases h1 : flag ∧ c0 = '\n'
    · rw [if_pos h1] at hl
      exact ih acc false hacc l hl c hc
    · rw [if_neg h1] at hl
      by_cases h2 : c0 = '\r'
      · rw [if_pos h2] at hl
        rcases List.mem_cons.mp hl with rfl | hl2
        · exact hacc c (List.mem_reverse.mp hc)
        · exact ih [] true (by simp) l hl2 c hc
      · rw [if_neg h2] at hl
        by_cases h3 : isPyLineBreak c0 = true
        · rw [if_pos h3] at hl
          rcases List.mem_cons.mp hl with rfl | hl2
          · exact hacc c (List.mem_reverse.mp hc)
          · exact ih [] false (by simp) l hl2 c hc
        · rw [if_neg h3] at hl
          refine ih (c0 :: acc) false ?_ l hl c hc
          intro d hd
          rcases List.mem_cons.mp hd with rfl | hd2
          · simpa using h3
          · exact hacc d hd2

theorem joinNL_cons_cons (l l2 : List Char) (L : List (List Char)) :
    joinNL (l :: l2 :: L) = l ++ '\n' :: joinNL (l2 :: L) := rfl

theorem joinNL_concat_empty :
    ∀ L : List (List Char), L ≠ [] → joinNL (L ++ [[]]) = joinNL L ++ ['\n'] := by
  intro L
  induction L with
  | nil => intro h; exact absurd rfl h
  | cons l L ih =>
    intro _
    cases L with
    | nil => rfl
    | cons l2 L2 =>
      have h1 : joinNL ((l :: l2 :: L2) ++ [[]]) =
          l ++ '\n' :: joinNL ((l2 :: L2) ++ [[]]) := rfl
      rw [h1, ih (List.cons_ne_nil _ _), joinNL_cons_cons]
      simp

theorem splitlinesAux_line_append :
    ∀ l rest acc, (∀ c ∈ l, isPyLineBreak c = false) →
      splitlinesAux (l ++ '\n' :: rest) acc false =
        (acc.reverse ++ l) :: splitlinesAux rest [] false := by
  intro l
  induction l with
  | nil =>
    intro rest acc _
    rw [show ([] : List Char) ++ '\n' :: rest = '\n' :: rest from rfl,
      splitlinesAux_cons, if_neg (by simp), if_neg (by decide),
      if_pos (by decide : isPyLineBreak '\n' = true)]
    simp
  | cons a l ih =>
    intro rest acc hbf
    have ha : isPyLineBreak a = false := hbf a (by simp)
    have har : a ≠ '\r' := by
      intro heq; subst heq; exact absurd ha (by decide)
    rw [show (a :: l) ++ '\n' :: rest = a :: (l ++ '\n' :: rest) from rfl,
      splitlinesAux_cons, if_neg (by simp), if_neg har, if_neg (by simp [ha]),
      ih rest (a :: acc) (fun d hd => hbf d (by simp [hd]))]
    simp

theorem splitlines_joinNL :
    ∀ L, (∀ l ∈ L, ∀ c ∈ l, isPyLineBreak c = false) →
      L.getLast? ≠ some [] → splitlines (joinNL L) = L := by
  intro L
  induction L with
  | nil => intro _ _; rfl
  | cons l L ih =>
    cases L with
    | nil =>
      intro hbf hlast
      have hl : l ≠ [] := by
        intro h0; apply hlast; rw [h0]; rfl
      have hie : l.isEmpty = false := by
        cases l with
        | nil => exact absurd rfl hl
        | cons a b => rfl
      show splitlines (joinNL [l]) = [l]
      rw [show joinNL [l] = l from rfl]
      unfold splitlines
      rw [splitlinesAux_breakFree l [] (hbf l (by simp))]
      simp [hie]
    | cons l2 L2 =>
      intro hbf hlast
      have h1 : joinNL (l :: l2 :: L2) = l ++ '\n' :: joinNL (l2 :: L2) := rfl
      unfold splitlines
      rw [h1, splitlinesAux_line_append l _ [] (hbf l (by simp))]
      simp only [List.reverse_nil, List.nil_append]
      congr 1
      exact ih (fun m hm => hbf m (by simp [hm]))
        (by rw [List.getLast?_cons_cons] at hlast; exact hlast)

theorem stripLineAux_take :
    ∀ l prev, stripLineAux prev l = l.take (keptLen prev l) := by
  intro l
  induction l with
  | nil => intro prev; rfl
  | cons a l ih =>
    intro prev
    by_cases hcond : a = '%' ∧ prev ≠ some '\\'
    · simp [stripLineAux, keptLen, hcond]
    · simp only [stripLineAux, keptLen, if_neg hcond]
      show a :: stripLineAux (some a) l = (a :: l).take (1 + keptLen (some a) l)
      rw [Nat.add_comm, List.take_succ_cons, ih (some a)]

/-! ## Synthesizer structure lemmas -/

theorem bindingsFor_none {cmds : List (String × Nat)} {p : String × String}
    (h : dictGet? cmds p.1 = none) : bindingsFor cmds p = [] := by
  unfold bindingsFor
  rw [h]

theorem bindingsFor_some {cmds : List (String × Nat)} {p : String × String}
    {n : Nat} (h : dictGet? cmds p.1 = some n) :
    bindingsFor cmds p = bindingsOfQ (p.1, p.2, n) := by
  unfold bindingsFor
  rw [h]
  by_cases hm : p.1 ∈ USE_ALT_PRIMARY
  · simp [bindingsOfQ, primChord, fallChord, hm]
  · simp [bindingsOfQ, primChord, fallChord, hm]

theorem snipFor_none {cmds : List (String × Nat)} {p : String × String}
    (h : dictGet? cmds p.1 = none) : snipFor cmds p = none := by
  unfold snipFor
  rw [h]
  rfl

theorem snipFor_some {cmds : List (String × Nat)} {p : String × String}
    {n : Nat} (h : dictGet? cmds p.1 = some n) :
    snipFor cmds p = some (snipOfQ (p.1, p.2, n)) := by
  unfold snipFor snipOfQ
  rw [h]
  rfl

theorem flatMap_bindingsFor (cmds : List (String × Nat)) :
    ∀ L : List (String × String),
      L.flatMap (bindingsFor cmds) =
        (L.filterMap fun p =>
          (dictGet? cmds p.1).map fun n => (p.1, p.2, n)).flatMap bindingsOfQ := by
  intro L
  induction L with
  | nil => rfl
  | cons p L ih =>
    simp only [List.flatMap_cons, List.filterMap_cons]
    cases hg : dictGet? cmds p.1 with
    | none => simp [bindingsFor_none hg, ih]
    | some n =>
      rw [bindingsFor_some hg]
      simp [ih]

theorem filterMap_snipFor (cmds : List (String × Nat)) :
    ∀ L : List (String × String),
      L.filterMap (snipFor cmds) =
        (L.filterMap fun p =>
          (dictGet? cmds p.1).map fun n => (p.1, p.2, n)).map snipOfQ := by
  intro L
  induction L with
  | nil => rfl
  | cons p L ih =>
    simp only [List.filterMap_cons]
    cases hg : dictGet? cmds p.1 with
    | none => simp [snipFor_none hg, ih]
    | some n =>
      rw [snipFor_some hg]
      simp [ih]

theorem generate_keybindings_eq (cmds : List (String × Nat)) :
    generate_keybindings cmds = (qualifiedKM cmds).flatMap bindingsOfQ :=
  flatMap_bindingsFor cmds KEY_MAP

theorem generate_snippets_eq (cmds : List (String × Nat)) :
    generate_snippets cmds = (qualifiedKM cmds).map snipOfQ :=
  filterMap_snipFor cmds KEY_MAP

theorem flatMap_pair_length {α β : Type} (Q : List α) (f g : α → β) :
    (Q.flatMap fun q => [f q, g q]).length = 2 * Q.length := by
  induction Q with
  | nil => rfl
  | cons q Q ih =>
    simp only [List.flatMap_cons, List.cons_append, List.singleton_append,
      List.nil_append, List.length_cons, ih]
    omega

theorem flatMap_pair_get {α β : Type} (Q : List α) (f g : α → β) :
    ∀ i, (Q.flatMap fun q => [f q, g q])[2 * i]? = (Q[i]?).map f ∧
      (Q.flatMap fun q => [f q, g q])[2 * i + 1]? = (Q[i]?).map g := by
  induction Q with
  | nil => intro i; simp
  | cons q Q ih =>
    intro i
    cases i with
    | zero => simp
    | succ i =>
      have e1 : 2 * (i + 1) = 2 * i + 1 + 1 := by omega
      rw [e1]
      simp only [List.flatMap_cons, List.cons_append, List.singleton_append,
        List.getElem?_cons_succ]
      exact ih i

/-! ## Claims -/

/-- C1: for an input style-file text defining macro `deleted` with
bracketed count 1 and macro `modified` with bracketed count 2 (and no
other definitions), the pipeline produces a bindings array of length
exactly 4 and a snippets object with exactly the keys "muse: deleted"
and "muse: modified". -/
theorem claim_C1_end_to_end :
    (generate_keybindings (extract_commands
        "\\newcommand\x7b\\deleted\x7d[1]\x7b...\x7d\n\\newcommand\x7b\\modified\x7d[2]\x7b...\x7d".data)).length = 4 ∧
    (generate_snippets (extract_commands
        "\\newcommand\x7b\\deleted\x7d[1]\x7b...\x7d\n\\newcommand\x7b\\modified\x7d[2]\x7b...\x7d".data)).map
      Prod.fst = ["muse: deleted", "muse: modified"] := by
  constructor
  · decide
  · decide

/-- C2: an input text consisting of a single definition construct
naming macro `X` with bracketed numeric count yields a MacroTable
mapping `X` to that count; with the bracket absent it maps `X` to 0. -/
theorem claim_C2_single_definition :
    (∀ X ds : List Char, X ≠ [] → (∀ c ∈ X, isNameChar c = true) →
        ds ≠ [] → (∀ c ∈ ds, c.isDigit = true) →
        dictGet? (extract_commands (defTextBracket X ds)) (String.mk X) =
          some (parseNat ds)) ∧
    (∀ X : List Char, X ≠ [] → (∀ c ∈ X, isNameChar c = true) →
        dictGet? (extract_commands (defTextPlain X)) (String.mk X) = some 0) := by
  constructor
  · intro X ds hX hXc hds hdsc
    rw [extract_defTextBracket X ds hX hXc hds hdsc]
    simp [dictGet?]
  · intro X hX hXc
    rw [extract_defTextPlain X hX hXc]
    simp [dictGet?]

theorem claim_C2_witness :
    ("foo".data ≠ [] ∧ (∀ c ∈ "foo".data, isNameChar c = true) ∧
      "12".data ≠ [] ∧ (∀ c ∈ "12".data, c.isDigit = true)) ∧
    dictGet? (extract_commands (defTextBracket "foo".data "12".data))
      (String.mk "foo".data) = some (parseNat "12".data) ∧
    dictGet? (extract_commands (defTextPlain "foo".data))
      (String.mk "foo".data) = some 0 :=
  ⟨by decide,
   claim_C2_single_definition.1 "foo".data "12".data (by decide) (by decide)
     (by decide) (by decide),
   claim_C2_single_definition.2 "foo".data (by decide) (by decide)⟩

/-- C3: whenever a macro name is matched more than once, the extracted
MacroTable maps it to the argument count of the last match in scan
order (earlier matches are overwritten). -/
theorem claim_C3_last_write_wins (text : List Char) (X : String)
    (h2 : 2 ≤ (occurrences text X).length) :
    dictGet? (extract_commands text) X =
      (occurrences text X).getLast?.map (fun p => p.2.getD 0) := by
  have hne : occurrences text X ≠ [] := by
    intro h0; rw [h0] at h2; simp at h2
  obtain ⟨p, hp⟩ : ∃ p, (occurrences text X).getLast? = some p := by
    cases hg : (occurrences text X).getLast? with
    | none => exact absurd (List.getLast?_eq_none_iff.mp hg) hne
    | some p => exact ⟨p, rfl⟩
  unfold occurrences at hp
  unfold extract_commands
  rw [dictGet_foldl, hp]
  unfold occurrences
  rw [hp]
  rfl

theorem claim_C3_witness :
    2 ≤ (occurrences
        "\\newcommand\x7b\\a\x7d[1]\x7bu\x7d \\newcommand\x7b\\a\x7d[2]\x7bv\x7d".data "a").length ∧
    dictGet? (extract_commands
        "\\newcommand\x7b\\a\x7d[1]\x7bu\x7d \\newcommand\x7b\\a\x7d[2]\x7bv\x7d".data) "a" =
      (occurrences
        "\\newcommand\x7b\\a\x7d[1]\x7bu\x7d \\newcommand\x7b\\a\x7d[2]\x7bv\x7d".data "a").getLast?.map
        (fun p => p.2.getD 0) :=
  ⟨by decide, claim_C3_last_write_wins _ _ (by decide)⟩

/-- C4 fails as stated: stripping the text consisting of two newline
characters yields one newline character, and stripping again yields the
empty text. -/
theorem claim_C4_counterexample :
    strip_comments (strip_comments "\n\n".data) ≠ strip_comments "\n\n".data := by
  decide

/-- C4 (amended): comment stripping is idempotent on every input whose
once-stripped text does not end with a newline character; in general a
second strip differs only by removing one trailing empty line. -/
theorem claim_C4_idempotent (s : List Char)
    (h : (strip_comments s).getLast? ≠ some '\n') :
    strip_comments (strip_comments s) = strip_comments s := by
  by_cases hnil : (splitlines s).map stripLine = []
  · have hs : strip_comments s = [] := by
      unfold strip_comments; rw [hnil]; rfl
    rw [hs]
    rfl
  · have hbfL : ∀ l ∈ (splitlines s).map stripLine, ∀ c ∈ l,
        isPyLineBreak c = false := by
      intro l hl c hc
      obtain ⟨l0, hl0, rfl⟩ := List.mem_map.mp hl
      exact splitlinesAux_lines_breakFree s [] false (by simp) l0 hl0 c
        (stripLineAux_sub l0 none c hc)
    have hmapL : ((splitlines s).map stripLine).map stripLine =
        (splitlines s).map stripLine := by
      rw [List.map_map]
      exact List.map_congr_left (fun l0 _ => stripLineAux_idem l0 none)
    by_cases hlastL : ((splitlines s).map stripLine).getLast? = some []
    · have hL2 := List.dropLast_append_getLast hnil
      have hlast_eq : ((splitlines s).map stripLine).getLast hnil = [] := by
        have := List.getLast?_eq_getLast ((splitlines s).map stripLine) hnil
        rw [this] at hlastL
        exact Option.some.inj hlastL
      by_cases hdrop : ((splitlines s).map stripLine).dropLast = []
      · have hone : (splitlines s).map stripLine = [[]] := by
          rw [← hL2, hdrop, hlast_eq]
          rfl
        have hs : strip_comments s = [] := by
          unfold strip_comments; rw [hone]; rfl
        rw [hs]
        rfl
      · exfalso
        apply h
        have hjoin : joinNL ((splitlines s).map stripLine) =
            joinNL (((splitlines s).map stripLine).dropLast) ++ ['\n'] := by
          conv_lhs => rw [← hL2, hlast_eq]
          exact joinNL_concat_empty _ hdrop
        show (strip_comments s).getLast? = some '\n'
        unfold strip_comments
        rw [hjoin, List.getLast?_concat]
    · have hsplit : splitlines (joinNL ((splitlines s).map stripLine)) =
          (splitlines s).map stripLine :=
        splitlines_joinNL _ hbfL hlastL
      show strip_comments (joinNL ((splitlines s).map stripLine)) =
        strip_comments s
      unfold strip_comments
      rw [hsplit, hmapL]

theorem claim_C4_witness :
    (strip_comments "ab%c\ndef".data).getLast? ≠ some '\n' ∧
    strip_comments (strip_comments "ab%c\ndef".data) =
      strip_comments "ab%c\ndef".data :=
  ⟨by decide, claim_C4_idempotent _ (by decide)⟩

/-- C5: for macro `modified` with 2 declared arguments the snippet
body's second argument group carries the "corrected text" default label
(修正後); for `commented` and `highlightComment` it carries the
"comment" label (コメント); for every other name it carries the generic
"argument 2" label (引数2). -/
theorem claim_C5_second_arg_labels :
    build_snippet "modified" 2 =
      "\\modified\x7b$\x7bTM_SELECTED_TEXT:$1\x7d\x7d\x7b$\x7b2:修正後\x7d\x7d" ∧
    build_snippet "commented" 2 =
      "\\commented\x7b$\x7bTM_SELECTED_TEXT:$1\x7d\x7d\x7b$\x7b2:コメント\x7d\x7d" ∧
    build_snippet "highlightComment" 2 =
      "\\highlightComment\x7b$\x7bTM_SELECTED_TEXT:$1\x7d\x7d\x7b$\x7b2:コメント\x7d\x7d" ∧
    (∀ cmd : String, cmd ≠ "modified" → cmd ≠ "commented" →
      cmd ≠ "highlightComment" →
      build_snippet cmd 2 =
        "\\" ++ cmd ++ "\x7b$\x7bTM_SELECTED_TEXT:$1\x7d\x7d\x7b$\x7b2:引数2\x7d\x7d") := by
  refine ⟨by decide, by decide, by decide, ?_⟩
  intro cmd h1 h2 h3
  unfold build_snippet
  rw [if_neg (by decide), if_neg (by decide), if_pos rfl, if_neg h1,
    if_neg (not_or.mpr ⟨h2, h3⟩)]

theorem claim_C5_witness :
    (("added" : String) ≠ "modified" ∧ ("added" : String) ≠ "commented" ∧
      ("added" : String) ≠ "highlightComment") ∧
    build_snippet "added" 2 =
      "\\" ++ "added" ++ "\x7b$\x7bTM_SELECTED_TEXT:$1\x7d\x7d\x7b$\x7b2:引数2\x7d\x7d" :=
  ⟨by decide,
   claim_C5_second_arg_labels.2.2.2 "added" (by decide) (by decide) (by decide)⟩

/-- C6: for every macro of the static configuration present in the
MacroTable, its two synthesized chords are control+alt+key and
control+shift+alt+key when it belongs to the alternate-modifier set —
both containing "alt" — and control+key and control+shift+key when it
does not, with neither chord containing "alt". -/
theorem claim_C6_alt_modifier (cmds : List (String × Nat)) (cmd key : String)
    (n : Nat) (hmem : (cmd, key) ∈ KEY_MAP)
    (hget : dictGet? cmds cmd = some n) :
    (cmd ∈ USE_ALT_PRIMARY →
      bindingsFor cmds (cmd, key) =
        [make_binding ("ctrl+alt+" ++ key) (build_snippet cmd n),
         make_binding ("ctrl+shift+alt+" ++ key) (build_snippet cmd n)] ∧
      ∀ b ∈ bindingsFor cmds (cmd, key), hasSub "alt".data b.key.data = true) ∧
    (cmd ∉ USE_ALT_PRIMARY →
      bindingsFor cmds (cmd, key) =
        [make_binding ("ctrl+" ++ key) (build_snippet cmd n),
         make_binding ("ctrl+shift+" ++ key) (build_snippet cmd n)] ∧
      ∀ b ∈ bindingsFor cmds (cmd, key), hasSub "alt".data b.key.data = false) := by
  have hb := bindingsFor_some (p := (cmd, key)) (n := n) hget
  simp only [KEY_MAP, List.mem_cons, List.not_mem_nil, or_false,
    Prod.mk.injEq] at hmem
  rcases hmem with ⟨rfl, rfl⟩ | ⟨rfl, rfl⟩ | ⟨rfl, rfl⟩ | ⟨rfl, rfl⟩ |
    ⟨rfl, rfl⟩ | ⟨rfl, rfl⟩ | ⟨rfl, rfl⟩ <;>
    rw [hb] <;>
    refine ⟨fun halt => ?_, fun hnalt => ?_⟩ <;>
    first
      | exact absurd halt (by decide)
      | exact absurd (by decide) hnalt
      | (refine ⟨rfl, ?_⟩
         intro b hbm
         rcases List.mem_cons.mp hbm with rfl | hbm2
         · rfl
         · rcases List.mem_cons.mp hbm2 with rfl | hbm3
           · rfl
           · exact absurd hbm3 (List.not_mem_nil b))

theorem claim_C6_witness :
    bindingsFor [("highlightComment", 2)] ("highlightComment", "h") =
      [make_binding ("ctrl+alt+" ++ "h") (build_snippet "highlightComment" 2),
       make_binding ("ctrl+shift+alt+" ++ "h")
         (build_snippet "highlightComment" 2)] ∧
    ∀ b ∈ bindingsFor [("highlightComment", 2)] ("highlightComment", "h"),
      hasSub "alt".data b.key.data = true :=
  (claim_C6_alt_modifier [("highlightComment", 2)] "highlightComment" "h" 2
    (by decide) (by decide)).1 (by decide)

/-- C7 fails as stated: the input "a\n" contains no marker character,
yet stripping drops its trailing newline. -/
theorem claim_C7_counterexample :
    strip_comments "a\n".data ≠ "a\n".data := by decide

/-- C7 (amended): on each line independently exactly the prefix before
the first unescaped marker is kept (`keptLen` is that truncation
point); the output is the kept line prefixes joined with a newline
character, which normalizes line terminators and drops a trailing one;
empty input yields empty output. -/
theorem claim_C7_strip_structure :
    (∀ s : List Char, strip_comments s =
      joinNL ((splitlines s).map (fun l => l.take (keptLen none l)))) ∧
    strip_comments [] = [] := by
  constructor
  · intro s
    unfold strip_comments
    congr 1
    exact List.map_congr_left (fun l _ => stripLineAux_take l none)
  · rfl

/-- C8: the CLI returns exit status 2 with a one-line diagnostic and
writes no files when the path argument is missing or when the path does
not exist, and returns exit status 0 on success. -/
theorem claim_C8_cli_validation :
    (∀ argv fs, argv.length < 2 →
      (mainRun argv fs).exitCode = 2 ∧ (mainRun argv fs).printed.length = 1 ∧
      (mainRun argv fs).writes = []) ∧
    (∀ prog path rest fs, fs path = none →
      (mainRun (prog :: path :: rest) fs).exitCode = 2 ∧
      (mainRun (prog :: path :: rest) fs).printed.length = 1 ∧
      (mainRun (prog :: path :: rest) fs).writes = []) ∧
    (∀ prog path rest fs content, fs path = some content →
      (mainRun (prog :: path :: rest) fs).exitCode = 0) := by
  refine ⟨?_, ?_, ?_⟩
  · intro argv fs h
    match argv with
    | [] => exact ⟨rfl, rfl, rfl⟩
    | [a] => exact ⟨rfl, rfl, rfl⟩
    | a :: b :: t =>
      simp only [List.length_cons] at h
      omega
  · intro prog path rest fs hfs
    simp only [mainRun]
    rw [hfs]
    exact ⟨rfl, rfl, rfl⟩
  · intro prog path rest fs content hfs
    simp only [mainRun]
    rw [hfs]

theorem claim_C8_witness :
    (["prog"].length < 2 ∧ (mainRun ["prog"] (fun _ => none)).exitCode = 2 ∧
      (mainRun ["prog"] (fun _ => none)).printed.length = 1 ∧
      (mainRun ["prog"] (fun _ => none)).writes = []) ∧
    ((fun _ : String => (none : Option String)) "f" = none ∧
      (mainRun ["prog", "f"] (fun _ => none)).exitCode = 2) ∧
    ((fun _ : String => some "x") "f" = some "x" ∧
      (mainRun ["prog", "f"] (fun _ => some "x")).exitCode = 0) :=
  ⟨⟨by decide, claim_C8_cli_validation.1 ["prog"] (fun _ => none) (by decide)⟩,
   ⟨rfl, (claim_C8_cli_validation.2.1 "prog" "f" [] (fun _ => none) rfl).1⟩,
   ⟨rfl, claim_C8_cli_validation.2.2 "prog" "f" [] (fun _ => some "x") "x" rfl⟩⟩

/-- C9: determinism — two runs given the same content for the input
path write byte-identical contents for both output JSON documents,
independent of the rest of the environment. -/
theorem claim_C9_deterministic (prog1 prog2 : String)
    (rest1 rest2 : List String) (path : String)
    (fs1 fs2 : String → Option String) (content : String)
    (h1 : fs1 path = some content) (h2 : fs2 path = some content) :
    (mainRun (prog1 :: path :: rest1) fs1).writes =
      (mainRun (prog2 :: path :: rest2) fs2).writes := by
  simp only [mainRun]
  rw [h1, h2]

theorem claim_C9_witness :
    ((fun _ : String => some "t") "p" = some "t") ∧
    (mainRun ["a", "p"] (fun _ => some "t")).writes =
      (mainRun ["b", "p"] (fun _ => some "t")).writes :=
  ⟨rfl, claim_C9_deterministic "a" "b" [] [] "p" _ _ "t" rfl rfl⟩

/-- C10: for every MacroTable the bindings list is exactly twice as
long as the snippets list; the bindings come in consecutive
primary/fallback pairs carrying an identical snippet body, which is
also the body of the corresponding snippet entry. -/
theorem claim_C10_pairing (cmds : List (String × Nat)) :
    (generate_keybindings cmds).length = 2 * (generate_snippets cmds).length ∧
    ∀ i, i < (generate_snippets cmds).length →
      ∃ b1 b2 e, (generate_keybindings cmds)[2 * i]? = some b1 ∧
        (generate_keybindings cmds)[2 * i + 1]? = some b2 ∧
        (generate_snippets cmds)[i]? = some e ∧
        b1.argsSnippet = b2.argsSnippet ∧ e.2.body = [b1.argsSnippet] := by
  have hkb : generate_keybindings cmds =
      (qualifiedKM cmds).flatMap (fun q =>
        [make_binding (primChord q) (build_snippet q.1 q.2.2),
         make_binding (fallChord q) (build_snippet q.1 q.2.2)]) :=
    generate_keybindings_eq cmds
  have hsb : generate_snippets cmds = (qualifiedKM cmds).map snipOfQ :=
    generate_snippets_eq cmds
  constructor
  · rw [hkb, hsb, List.length_map]
    exact flatMap_pair_length (qualifiedKM cmds) _ _
  · intro i hi
    rw [hsb, List.length_map] at hi
    obtain ⟨q, hq⟩ : ∃ q, (qualifiedKM cmds)[i]? = some q :=
      ⟨(qualifiedKM cmds).get ⟨i, hi⟩, List.getElem?_eq_getElem hi⟩
    have hget := flatMap_pair_get (qualifiedKM cmds)
      (fun q => make_binding (primChord q) (build_snippet q.1 q.2.2))
      (fun q => make_binding (fallChord q) (build_snippet q.1 q.2.2)) i
    refine ⟨make_binding (primChord q) (build_snippet q.1 q.2.2),
      make_binding (fallChord q) (build_snippet q.1 q.2.2),
      snipOfQ q, ?_, ?_, ?_, rfl, rfl⟩
    · rw [hkb, hget.1, hq]
      rfl
    · rw [hkb, hget.2, hq]
      rfl
    · rw [hsb, List.getElem?_map, hq]
      rfl

theorem claim_C10_witness :
    0 < (generate_snippets [("deleted", 1)]).length ∧
    (∃ b1 b2 e, (generate_keybindings [("deleted", 1)])[2 * 0]? = some b1 ∧
      (generate_keybindings [("deleted", 1)])[2 * 0 + 1]? = some b2 ∧
      (generate_snippets [("deleted", 1)])[0]? = some e ∧
      b1.argsSnippet = b2.argsSnippet ∧ e.2.body = [b1.argsSnippet]) :=
  ⟨by decide, (claim_C10_pairing [("deleted", 1)]).2 0 (by decide)⟩

end Muse
